import Mathlib

/-!
# Verification of the Yandex Tracker Time Manager Bot core algorithms

Shallow embedding of the allocation, reconciliation, status-timeline,
weekly-schedule, randomization and duration-codec code of the repository
(`internal/timemanager/manager.go`, the timeline/backfill helpers,
`internal/tracker/models.go`, `pkg/random/random.go`,
`internal/timemanager/weekly_state.go`).

Go `float64` minute arithmetic is embedded as exact rational (`ℚ`)
arithmetic; Go integer arithmetic as `ℤ`/`ℕ`.  Randomness
(`rand.Float64`, `rand.Intn`) is embedded by passing the drawn values as
explicit parameters, bounded by the hypotheses the generator guarantees
(`0 ≤ u ≤ 1` for `rand.Float64()`, `j ≤ i` for `rand.Intn(i+1)`).
-/

namespace TimeBot

/-! ## pkg/random/random.go -/

/-- Go's `math.Round`: round to the nearest integer, halves away from zero. -/
def goRound (x : ℚ) : ℤ :=
  if 0 ≤ x then ⌊x + 1/2⌋ else ⌈x - 1/2⌉

/-- `math.Round(x*100) / 100`, the final line of `Randomize`. -/
def round2 (x : ℚ) : ℚ :=
  (goRound (x * 100) : ℚ) / 100

/-- `random.Randomize(value, percent)` from `pkg/random/random.go`.
`u` is the value drawn by `rand.Float64()` (so `0 ≤ u ≤ 1`):
the offset is `(u*2 - 1) * variance` with `variance = value * percent/100`. -/
def Randomize (value percent u : ℚ) : ℚ :=
  if percent ≤ 0 then value
  else
    round2 (value + (u * 2 - 1) * (value * (percent / 100)))

/-! ## Data model: ephemeral time entries (tracker.TimeEntry) -/

/-- `tracker.TimeEntry`: the ephemeral entries produced by the allocation
engine (`{issueKey, minutes, comment}`). -/
structure TimeEntry where
  issueKey : String
  minutes : ℚ
  comment : String
deriving DecidableEq

instance : Inhabited TimeEntry := ⟨⟨"", 0, ""⟩⟩

/-- Sum of the `Minutes` fields of an entry list (the `totalMinutes`
accumulation loops of `manager.go`). -/
def sumMinutes (es : List TimeEntry) : ℚ :=
  (es.map TimeEntry.minutes).sum

/-! ## Allocation engine (`Manager.DistributeTimeForDate`, manager.go) -/

/-- Config daily task (`config.TimeRules.DailyTasks` element). -/
structure DailyTask where
  issue : String
  minutes : ℕ
  description : String

/-- Config weekly task (`config.TimeRules.WeeklyTasks` element). -/
structure WeeklyTask where
  issue : String
  hoursPerWeek : ℚ
  daysPerWeek : ℕ
  description : String

/-- Step 3 of `DistributeTimeForDate`: one entry per configured daily task,
with jittered minutes.  `u i` is the draw consumed by the `i`-th
`Randomize` call. -/
def dailyEntries (tasks : List DailyTask) (pct : ℚ) (u : ℕ → ℚ) : List TimeEntry :=
  tasks.enum.map fun p =>
    { issueKey := p.2.issue
      minutes := Randomize (p.2.minutes : ℚ) pct (u p.1)
      comment := p.2.description }

/-- Step 4 (`distributeWeeklyTasks`): for each weekly task whose
`IsSelectedDay` check succeeds, contribute
`Randomize(hoursPerWeek/daysPerWeek*60, pct)` minutes. -/
def weeklyEntries (tasks : List WeeklyTask) (selected : String → Bool)
    (pct : ℚ) (u : ℕ → ℚ) : List TimeEntry :=
  (tasks.filter fun t => selected t.issue).enum.map fun p =>
    { issueKey := p.2.issue
      minutes := Randomize (p.2.hoursPerWeek / (p.2.daysPerWeek : ℚ) * 60) pct (u p.1)
      comment := p.2.description }

/-- `Manager.excludeFixedTasks`: drop issues that are daily or weekly
fixed tasks. -/
def excludeFixedTasks (daily : List DailyTask) (weekly : List WeeklyTask)
    (issues : List String) : List String :=
  issues.filter fun k =>
    !(daily.any (fun t => t.issue == k) || weekly.any (fun t => t.issue == k))

/-- Step 6 of `DistributeTimeForDate`: split the remaining minutes evenly
across the open issues and jitter each share. -/
def remainderEntries (issues : List String) (remaining pct : ℚ) (u : ℕ → ℚ) :
    List TimeEntry :=
  issues.enum.map fun p =>
    { issueKey := p.2
      minutes := Randomize (remaining / (issues.length : ℚ)) pct (u p.1)
      comment := "Development work" }

/-- Step 7 of `DistributeTimeForDate` (also used by `backfillDay`): if the
running total is positive and differs from the target, multiply every
entry's minutes by `target/total`. -/
def normalizeEntries (entries : List TimeEntry) (target : ℚ) : List TimeEntry :=
  let total := sumMinutes entries
  if 0 < total ∧ total ≠ target then
    entries.map fun e => { e with minutes := e.minutes * (target / total) }
  else entries

/-- Steps 3–6 of `DistributeTimeForDate`: the candidate entry list before
exact normalization.  `boardEntries` stands for the output of the
feature-flagged `distributeBoardTasks` call, `openIssues` for the search
results of step 5. -/
def buildEntries (targetHours : ℕ) (worked : ℚ)
    (daily : List DailyTask) (pct : ℚ) (u1 : ℕ → ℚ)
    (wTasks : List WeeklyTask) (selected : String → Bool) (u2 : ℕ → ℚ)
    (boardEnabled : Bool) (boardEntries : List TimeEntry)
    (openIssues : List String) (u3 : ℕ → ℚ) : List TimeEntry :=
  let target : ℚ := (targetHours : ℚ) * 60
  let rem0 := target - worked
  let dEs := dailyEntries daily pct u1
  let rem1 := rem0 - sumMinutes dEs
  let wEs := weeklyEntries wTasks selected pct u2
  let rem2 := rem1 - sumMinutes wEs
  let bEs := if boardEnabled ∧ 0 < rem2 then boardEntries else []
  let rem3 := rem2 - sumMinutes bEs
  let issues := excludeFixedTasks daily wTasks openIssues
  let rEs :=
    if 0 < rem3 ∧ 0 < issues.length then remainderEntries issues rem3 pct u3 else []
  dEs ++ wEs ++ bEs ++ rEs

/-- `Manager.DistributeTimeForDate` without the write-back phase: `none`
models the nil no-op results (non-workday, or already worked enough);
otherwise the entry list after exact normalization is returned. -/
def distributeTimeForDate (isWorkday : Bool) (targetHours : ℕ) (worked : ℚ)
    (daily : List DailyTask) (pct : ℚ) (u1 : ℕ → ℚ)
    (wTasks : List WeeklyTask) (selected : String → Bool) (u2 : ℕ → ℚ)
    (boardEnabled : Bool) (boardEntries : List TimeEntry)
    (openIssues : List String) (u3 : ℕ → ℚ) : Option (List TimeEntry) :=
  if !isWorkday then none
  else
    let target : ℚ := (targetHours : ℚ) * 60
    if target - worked ≤ 0 then none
    else
      some (normalizeEntries
        (buildEntries targetHours worked daily pct u1 wTasks selected u2
          boardEnabled boardEntries openIssues u3) target)

/-! ### Basic lemmas about normalization -/

theorem sumMinutes_nil : sumMinutes [] = 0 := rfl

theorem sumMinutes_cons (e : TimeEntry) (es : List TimeEntry) :
    sumMinutes (e :: es) = e.minutes + sumMinutes es := by
  simp [sumMinutes]

theorem sumMinutes_scale (es : List TimeEntry) (c : ℚ) :
    sumMinutes (es.map fun e => { e with minutes := e.minutes * c }) =
      sumMinutes es * c := by
  induction es with
  | nil => simp [sumMinutes]
  | cons e es ih =>
      simp only [List.map_cons, sumMinutes_cons, ih]
      ring

theorem sumMinutes_normalizeEntries (es : List TimeEntry) (target : ℚ)
    (h : 0 < sumMinutes es) :
    sumMinutes (normalizeEntries es target) = target := by
  unfold normalizeEntries
  by_cases hne : sumMinutes es = target
  · simp [hne]
  · rw [if_pos ⟨h, hne⟩, sumMinutes_scale]
    field_simp

/-! ### C1: normalized output hits the target -/

/-- **C1.** For every workday date with `worked < target` and a candidate
entry list (steps 2–5 of `DistributeTimeForDate`) whose minute sum is
positive, the entry list returned after the exact-normalization step sums
to the target minutes (`targetHours * 60`) within 0.01 minute (in the
exact rational embedding the sum equals the target). -/
theorem distributeTimeForDate_hits_target
    (targetHours : ℕ) (worked : ℚ)
    (daily : List DailyTask) (pct : ℚ) (u1 : ℕ → ℚ)
    (wTasks : List WeeklyTask) (selected : String → Bool) (u2 : ℕ → ℚ)
    (boardEnabled : Bool) (boardEntries : List TimeEntry)
    (openIssues : List String) (u3 : ℕ → ℚ)
    (hworked : worked < (targetHours : ℚ) * 60)
    (hS : 0 < sumMinutes (buildEntries targetHours worked daily pct u1
      wTasks selected u2 boardEnabled boardEntries openIssues u3)) :
    ∃ es, distributeTimeForDate true targetHours worked daily pct u1
        wTasks selected u2 boardEnabled boardEntries openIssues u3 = some es ∧
      |sumMinutes es - (targetHours : ℚ) * 60| ≤ 1/100 := by
  refine ⟨normalizeEntries
      (buildEntries targetHours worked daily pct u1 wTasks selected u2
        boardEnabled boardEntries openIssues u3) ((targetHours : ℚ) * 60), ?_, ?_⟩
  · unfold distributeTimeForDate
    rw [if_neg (by simp), if_neg (by linarith)]
  · rw [sumMinutes_normalizeEntries _ _ hS]
    simp

/-- Witness for `distributeTimeForDate_hits_target` at a concrete input:
one daily task of 40 minutes, no jitter, 8-hour target, nothing worked. -/
theorem distributeTimeForDate_hits_target_witness :
    (0 : ℚ) < (8 : ℕ) * 60 ∧
    ∃ es, distributeTimeForDate true 8 0 [⟨"FIX-1", 40, "daily"⟩] 0 (fun _ => 0)
        [] (fun _ => false) (fun _ => 0) false [] [] (fun _ => 0) = some es ∧
      |sumMinutes es - ((8 : ℕ) : ℚ) * 60| ≤ 1/100 :=
  ⟨by norm_num,
   distributeTimeForDate_hits_target 8 0 [⟨"FIX-1", 40, "daily"⟩] 0 (fun _ => 0)
     [] (fun _ => false) (fun _ => 0) false [] [] (fun _ => 0)
     (by norm_num)
     (by norm_num [buildEntries, dailyEntries, weeklyEntries, excludeFixedTasks,
       remainderEntries, Randomize, sumMinutes])⟩

/-! ### C9: Randomize interval -/

/-- **C9 counterexample.** `Randomize(0.004, 50)` with draw `u = 0.99`
returns `0.01`, which lies strictly above the claimed upper bound
`v * (1 + p/100) = 0.006`: the final 2-decimal rounding can leave the
jitter interval.  So the claim "Randomize(v, p) always returns a value
within `[v(1-p/100), v(1+p/100)]`" is false as stated. -/
theorem Randomize_interval_cex :
    Randomize (1/250) 50 (99/100) = 1/100 ∧
    ¬ Randomize (1/250) 50 (99/100) ≤ (1/250) * (1 + 50/100) := by
  have h1 : Randomize (1/250) 50 (99/100) = 1/100 := by
    unfold Randomize round2 goRound
    rw [if_neg (by norm_num), if_pos (by norm_num),
      show ((1:ℚ)/250 + ((99:ℚ)/100 * 2 - 1) * (1/250 * (50/100))) * 100 + 1/2
        = 137/125 by norm_num,
      show ⌊(137 : ℚ)/125⌋ = 1 from Int.floor_eq_iff.mpr (by norm_num)]
    norm_num
  exact ⟨h1, by rw [h1]; norm_num⟩

theorem goRound_bounds (y : ℚ) :
    y - 1/2 ≤ (goRound y : ℚ) ∧ (goRound y : ℚ) ≤ y + 1/2 := by
  unfold goRound
  by_cases h : 0 ≤ y
  · rw [if_pos h]
    constructor
    · have := Int.sub_one_lt_floor (y + 1/2)
      push_cast at this ⊢
      linarith
    · have := Int.floor_le (y + 1/2)
      linarith
  · rw [if_neg h]
    constructor
    · have := Int.le_ceil (y - 1/2)
      linarith
    · have := Int.ceil_lt_add_one (y - 1/2)
      push_cast at this ⊢
      linarith

theorem round2_bounds (x : ℚ) :
    x - 1/200 ≤ round2 x ∧ round2 x ≤ x + 1/200 := by
  have h := goRound_bounds (x * 100)
  unfold round2
  constructor <;> [linarith [h.1]; linarith [h.2]]

/-- **C9 (amended).** For nonnegative values and a draw `u ∈ [0,1]`:
`Randomize(v, p)` returns `v` unchanged whenever `p ≤ 0`, and for `p > 0`
it returns a value within the jitter interval
`[v(1-p/100), v(1+p/100)]` *widened by the 2-decimal rounding tolerance
of 0.005 on each side* (the rounding step can leave the exact interval,
as the counterexample shows, but never by more than half a hundredth). -/
theorem Randomize_interval_amended (v p u : ℚ)
    (hv : 0 ≤ v) (hu0 : 0 ≤ u) (hu1 : u ≤ 1) :
    (p ≤ 0 → Randomize v p u = v) ∧
    (0 < p →
      v * (1 - p/100) - 1/200 ≤ Randomize v p u ∧
      Randomize v p u ≤ v * (1 + p/100) + 1/200) := by
  constructor
  · intro hp
    unfold Randomize
    rw [if_pos hp]
  · intro hp
    unfold Randomize
    rw [if_neg (not_le.mpr hp)]
    set r := v + (u * 2 - 1) * (v * (p / 100)) with hr
    have hvar : 0 ≤ v * (p / 100) := by positivity
    have hoff1 : -(v * (p / 100)) ≤ (u * 2 - 1) * (v * (p / 100)) := by nlinarith
    have hoff2 : (u * 2 - 1) * (v * (p / 100)) ≤ v * (p / 100) := by nlinarith
    have hb := round2_bounds r
    constructor
    · have : v * (1 - p/100) ≤ r := by rw [hr]; ring_nf; nlinarith
      linarith [hb.1]
    · have : r ≤ v * (1 + p/100) := by rw [hr]; ring_nf; nlinarith
      linarith [hb.2]

/-- Witness for `Randomize_interval_amended` at `v = 100`, `p = 1`,
`u = 1/2` (the centered draw). -/
theorem Randomize_interval_amended_witness :
    (0 : ℚ) < 1 ∧
    (100 : ℚ) * (1 - 1/100) - 1/200 ≤ Randomize 100 1 (1/2) ∧
    Randomize 100 1 (1/2) ≤ 100 * (1 + 1/100) + 1/200 :=
  ⟨by norm_num,
   (Randomize_interval_amended 100 1 (1/2) (by norm_num) (by norm_num)
     (by norm_num)).2 (by norm_num)⟩

/-! ## `mergeUnique` (timeline helpers, used by `collectAllRelevantIssues`) -/

/-- `mergeUnique(lists...)`: insert every string of every input list into a
uniqueness map, read the keys back, and `sort.Strings` the result.  The
map is embedded as `List.dedup` of the concatenation (the order the keys
come out of the Go map is irrelevant because the final sort fixes it);
`sort.Strings` is embedded as a sort by the lexicographic string order. -/
def mergeUnique (lists : List (List String)) : List String :=
  lists.flatten.dedup.insertionSort (· ≤ ·)

/-- **C10.** `mergeUnique` returns a strictly sorted (hence duplicate-free)
list whose element set is the union of the input lists' element sets, and
is therefore a deterministic function of those sets: two input families
with the same union produce identical outputs. -/
theorem mergeUnique_spec (lists : List (List String)) :
    (mergeUnique lists).Sorted (· < ·) ∧
    (∀ x, x ∈ mergeUnique lists ↔ ∃ l ∈ lists, x ∈ l) ∧
    (∀ lists2 : List (List String),
      (∀ x, (∃ l ∈ lists, x ∈ l) ↔ ∃ l ∈ lists2, x ∈ l) →
      mergeUnique lists = mergeUnique lists2) := by
  have hmem : ∀ (L : List (List String)) (x : String),
      x ∈ mergeUnique L ↔ ∃ l ∈ L, x ∈ l := by
    intro L x
    unfold mergeUnique
    rw [(List.perm_insertionSort _ _).mem_iff, List.mem_dedup, List.mem_flatten]
  have hnodup : ∀ L : List (List String), (mergeUnique L).Nodup :=
    fun L => (List.perm_insertionSort _ _).nodup_iff.mpr (List.nodup_dedup _)
  have hsorted : ∀ L : List (List String), (mergeUnique L).Sorted (· < ·) := by
    intro L
    have hle : (mergeUnique L).Sorted (· ≤ ·) := List.sorted_insertionSort _ _
    have := (hnodup L)
    rw [List.Nodup] at this
    exact (hle.and this).imp fun h => lt_of_le_of_ne h.1 h.2
  refine ⟨hsorted lists, hmem lists, ?_⟩
  intro lists2 h
  haveI : IsAntisymm String (· < ·) := ⟨fun _ _ h1 h2 => ((lt_asymm h1) h2).elim⟩
  refine List.eq_of_perm_of_sorted ?_ (hsorted lists) (hsorted lists2)
  refine (List.perm_ext_iff_of_nodup (hnodup lists) (hnodup lists2)).mpr fun x => ?_
  rw [hmem, hmem]
  exact h x

/-- Witness for the determinism part of `mergeUnique_spec`: the families
`[["b"], ["a"]]` and `[["a", "b", "a"]]` have the same union and merge to
the same list. -/
theorem mergeUnique_spec_witness :
    mergeUnique [["b"], ["a"]] = mergeUnique [["a", "b", "a"]] :=
  (mergeUnique_spec [["b"], ["a"]]).2.2 [["a", "b", "a"]] (by
    intro x
    constructor
    · rintro ⟨l, hl, hx⟩
      refine ⟨["a", "b", "a"], by simp, ?_⟩
      simp only [List.mem_cons, List.mem_singleton] at hl ⊢
      rcases hl with rfl | rfl | h
      · simp at hx; simp [hx]
      · simp at hx; simp [hx]
      · simp at h
    · rintro ⟨l, hl, hx⟩
      simp only [List.mem_singleton] at hl
      subst hl
      simp only [List.mem_cons] at hx
      rcases hx with rfl | rfl | rfl | h
      · exact ⟨["a"], by simp, by simp⟩
      · exact ⟨["b"], by simp, by simp⟩
      · exact ⟨["a"], by simp, by simp⟩
      · simp at h)

/-! ## Business-unit duration codec (`internal/tracker/models.go`) -/

/-- Decimal digit character, as emitted by `fmt.Sprintf("%d", ...)`. -/
def natDigitChar (d : ℕ) : Char :=
  match d with
  | 0 => '0' | 1 => '1' | 2 => '2' | 3 => '3' | 4 => '4'
  | 5 => '5' | 6 => '6' | 7 => '7' | 8 => '8' | _ => '9'

/-- Decimal representation of a natural number (most significant digit
first), as `fmt.Sprintf("%d", n)` prints it. -/
def natRepr (n : ℕ) : List Char :=
  if h : n < 10 then [natDigitChar n]
  else natRepr (n / 10) ++ [natDigitChar (n % 10)]
decreasing_by exact Nat.div_lt_self (by omega) (by omega)

/-- Decimal representation of an integer (`fmt.Sprintf("%d", z)`). -/
def intRepr (z : ℤ) : List Char :=
  if z < 0 then '-' :: natRepr z.natAbs else natRepr z.toNat

/-- Go's `int(x)` conversion from `float64`: truncation toward zero. -/
def goInt (x : ℚ) : ℤ :=
  if 0 ≤ x then ⌊x⌋ else ⌈x⌉

/-- `tracker.FormatDuration` as a character list:
`hours := int(minutes/60)`, `mins := int(minutes) % 60` (Go `%` is the
truncated remainder, `Int.tmod`), then `PT{h}H{m}M` / `PT{h}H` / `PT{m}M`
with `PT0M` for zero. -/
def formatDurationChars (m : ℚ) : List Char :=
  if m = 0 then ['P', 'T', '0', 'M']
  else
    let hours : ℤ := goInt (m / 60)
    let mins : ℤ := Int.tmod (goInt m) 60
    if 0 < hours ∧ 0 < mins then
      'P' :: 'T' :: (intRepr hours ++ 'H' :: (intRepr mins ++ ['M']))
    else if 0 < hours then
      'P' :: 'T' :: (intRepr hours ++ ['H'])
    else
      'P' :: 'T' :: (intRepr mins ++ ['M'])

/-- `tracker.FormatDuration`. -/
def FormatDuration (m : ℚ) : String :=
  String.mk (formatDurationChars m)

/-- `fmt.Sscanf(s, "%d", &x)` digit accumulation: consume leading decimal
digits; if none are present the scanned variable keeps its zero value. -/
def digitsVal : List Char → ℕ → ℕ
  | [], acc => acc
  | c :: cs, acc => if c.isDigit then digitsVal cs (10 * acc + (c.toNat - 48)) else acc

/-- `fmt.Sscanf(s, "%d", &x)`: optional sign followed by leading digits;
without digits the variable stays `0` (the error is ignored in the Go
parser). -/
def scanInt : List Char → ℤ
  | [] => 0
  | c :: cs =>
    if c = '-' then -(digitsVal cs 0 : ℤ)
    else if c = '+' then (digitsVal cs 0 : ℤ)
    else (digitsVal (c :: cs) 0 : ℤ)

/-- `tracker.ParseISO8601Duration` on a character list.  Business units:
1 week = 5·8·60 = 2400 minutes, 1 day = 8·60 = 480 minutes; the final
`secs/60` is Go's truncated integer division (`Int.tdiv`).  `none` models
the two error returns (empty string, missing `P` prefix); every other
input parses with unscanned components defaulting to zero, exactly as the
Go parser's ignored `Sscanf` errors behave. -/
def parseDurationChars (cs : List Char) : Option ℤ :=
  match cs with
  | [] => none
  | c :: rest =>
    if c = 'P' then
      let datePart := if 'T' ∈ rest then rest.takeWhile (fun x => x != 'T') else rest
      let timePart := if 'T' ∈ rest then (rest.dropWhile (fun x => x != 'T')).tail else []
      let wMin : ℤ :=
        if 'W' ∈ datePart then scanInt (datePart.takeWhile (fun x => x != 'W')) * 2400 else 0
      let dp2 := if 'W' ∈ datePart then (datePart.dropWhile (fun x => x != 'W')).tail else datePart
      let dMin : ℤ := if 'D' ∈ dp2 then scanInt (dp2.takeWhile (fun x => x != 'D')) * 480 else 0
      let hrs : ℤ := if 'H' ∈ timePart then scanInt (timePart.takeWhile (fun x => x != 'H')) else 0
      let tp1 := if 'H' ∈ timePart then (timePart.dropWhile (fun x => x != 'H')).tail else timePart
      let mns : ℤ := if 'M' ∈ tp1 then scanInt (tp1.takeWhile (fun x => x != 'M')) else 0
      let tp2 := if 'M' ∈ tp1 then (tp1.dropWhile (fun x => x != 'M')).tail else tp1
      let scs : ℤ := if 'S' ∈ tp2 then scanInt (tp2.takeWhile (fun x => x != 'S')) else 0
      some (wMin + dMin + (hrs * 60 + mns + Int.tdiv scs 60))
    else none

/-- `tracker.ParseISO8601Duration` (minutes are always whole numbers: every
component is integer arithmetic, including the truncated `secs/60`). -/
def ParseISO8601Duration (s : String) : Option ℤ :=
  parseDurationChars s.data

/-! ## `Manager.createWorklogs` (manager.go) -/

/-- A worklog handed to `trackerClient.CreateWorklog`: issue key, start
time (minutes after midnight of the date), ISO-formatted duration and the
comment. -/
structure CreatedLog where
  issueKey : String
  startMin : ℕ
  durationISO : String
  comment : String
deriving DecidableEq

instance : Inhabited CreatedLog := ⟨⟨"", 0, "", ""⟩⟩

/-- The worklog staged for the entry at index `i`:
`startTime = 10:00` of the date (600 minutes) plus `i*5` minutes,
duration `FormatDuration(entry.Minutes)`. -/
def stagedLog (i : ℕ) (e : TimeEntry) : CreatedLog :=
  ⟨e.issueKey, 600 + 5 * i, FormatDuration e.minutes, e.comment⟩

/-- The sequence of worklogs staged for `entries`, starting at index `i`. -/
def stagedFrom (i : ℕ) : List TimeEntry → List CreatedLog
  | [] => []
  | e :: es => stagedLog i e :: stagedFrom (i + 1) es

/-- The loop of `Manager.createWorklogs`, from entry index `i`.
`fail j` tells whether the `CreateWorklog` call for index `j` fails.
Returns the worklogs actually persisted by the calls made, and whether the
whole loop succeeded: on the first failure it returns immediately (the
remaining entries are never written, the already-written ones stay). -/
def createWorklogsGo (fail : ℕ → Bool) : List TimeEntry → ℕ → List CreatedLog × Bool
  | [], _ => ([], true)
  | e :: es, i =>
    if fail i then ([], false)
    else
      let r := createWorklogsGo fail es (i + 1)
      (stagedLog i e :: r.1, r.2)

/-- `Manager.createWorklogs`: sequential writes with staggered start
times; returns the persisted worklogs and the success flag. -/
def createWorklogs (fail : ℕ → Bool) (entries : List TimeEntry) :
    List CreatedLog × Bool :=
  createWorklogsGo fail entries 0

theorem createWorklogsGo_ok (fail : ℕ → Bool) :
    ∀ (es : List TimeEntry) (i : ℕ),
      (∀ j, j < es.length → fail (i + j) = false) →
      createWorklogsGo fail es i = (stagedFrom i es, true) := by
  intro es
  induction es with
  | nil => intro i _; rfl
  | cons e es ih =>
      intro i h
      have h0 : fail i = false := by simpa using h 0 (by simp)
      simp only [createWorklogsGo, h0, Bool.false_eq_true, if_false, stagedFrom]
      rw [ih (i + 1) fun j hj => by
        have h2 := h (j + 1) (by simpa using Nat.succ_lt_succ hj)
        rw [show i + 1 + j = i + (j + 1) by omega]
        exact h2]

theorem createWorklogsGo_fail (fail : ℕ → Bool) :
    ∀ (es : List TimeEntry) (k i : ℕ),
      k < es.length → fail (i + k) = true →
      (∀ j, j < k → fail (i + j) = false) →
      createWorklogsGo fail es i = (stagedFrom i (es.take k), false) := by
  intro es
  induction es with
  | nil => intro k i hk; simp at hk
  | cons e es ih =>
      intro k i hk hfk hbefore
      match k with
      | 0 =>
          simp only [Nat.add_zero] at hfk
          simp [createWorklogsGo, hfk, stagedFrom]
      | k + 1 =>
          have h0 : fail i = false := by simpa using hbefore 0 (by omega)
          simp only [createWorklogsGo, h0, Bool.false_eq_true, if_false,
            List.take_succ_cons, stagedFrom]
          rw [ih k (i + 1) (by simpa using hk)
            (by simpa [Nat.add_assoc, Nat.add_comm 1 k] using hfk)
            fun j hj => by
              have h2 := hbefore (j + 1) (by omega)
              rw [show i + 1 + j = i + (j + 1) by omega]
              exact h2]

theorem stagedFrom_startMin :
    ∀ (es : List TimeEntry) (i j : ℕ), j < es.length →
      ((stagedFrom i es).getD j default).startMin = 600 + 5 * (i + j) := by
  intro es
  induction es with
  | nil => intro i j hj; simp at hj
  | cons e es ih =>
      intro i j hj
      match j with
      | 0 => simp [stagedFrom, stagedLog]
      | j + 1 =>
          simp only [stagedFrom, List.getD_cons_succ]
          rw [ih (i + 1) j (by simpa using hj)]
          ring_nf

/-- **C5 counterexample.** With two entries and a write failure on the
second `CreateWorklog` call, `createWorklogs` reports the error but the
first entry has already been persisted: the day's persisted state is
*not* unchanged on error, so "no partial day is persisted" is false as
stated. -/
theorem createWorklogs_rollback_cex :
    (createWorklogs (fun i => i == 1)
        [⟨"A", 30, "c"⟩, ⟨"B", 30, "c"⟩]).2 = false ∧
    (createWorklogs (fun i => i == 1)
        [⟨"A", 30, "c"⟩, ⟨"B", 30, "c"⟩]).1.length = 1 := by
  constructor <;>
    simp [createWorklogs, createWorklogsGo, stagedLog]

/-- **C5 (amended).** `createWorklogs` writes the entries sequentially
with synthetic increasing start timestamps (10:00 of the date plus 5
minutes per entry index).  If no write fails, all entries are persisted
and the commit succeeds.  A single write failure aborts the *rest* of the
day's commit — the failing entry and everything after it are not written
and the error is surfaced — but the entries already written before the
failure remain persisted (there is no rollback). -/
theorem createWorklogs_spec (fail : ℕ → Bool) (entries : List TimeEntry) :
    ((∀ j, j < entries.length → fail j = false) →
      createWorklogs fail entries = (stagedFrom 0 entries, true)) ∧
    (∀ k, k < entries.length → fail k = true → (∀ j, j < k → fail j = false) →
      createWorklogs fail entries = (stagedFrom 0 (entries.take k), false)) ∧
    (∀ l j, j < l.length → ((stagedFrom 0 l).getD j default).startMin = 600 + 5 * j) := by
  refine ⟨?_, ?_, ?_⟩
  · intro h
    exact createWorklogsGo_ok fail entries 0 fun j hj => by simpa using h j hj
  · intro k hk hfk hbefore
    exact createWorklogsGo_fail fail entries k 0 hk (by simpa using hfk)
      fun j hj => by simpa using hbefore j hj
  · intro l j hj
    simpa using stagedFrom_startMin l 0 j hj

/-- Witness for `createWorklogs_spec`: a one-entry day with no failure is
fully persisted and succeeds. -/
theorem createWorklogs_spec_witness :
    createWorklogs (fun _ => false) [⟨"A", 30, "c"⟩] =
      (stagedFrom 0 [⟨"A", 30, "c"⟩], true) :=
  (createWorklogs_spec (fun _ => false) [⟨"A", 30, "c"⟩]).1 fun _ _ => rfl

/-! ## Status timeline (`StatusOnDate`, timeline helpers) -/

/-- A `time.Time` instant, at the granularity the timeline code uses: the
calendar date as a day number (`day`, what `time.Date(Y,M,D,0,0,0,0,local)`
truncation keeps) plus the time of day in seconds (`tod`, which
`StatusOnDate` ignores). -/
structure Tm where
  day : ℤ
  tod : ℚ
deriving DecidableEq

/-- A status change of the timeline (`StatusChange{Timestamp, Status}`). -/
structure StatusChange where
  timestamp : Tm
  status : String
deriving DecidableEq

instance : Inhabited StatusChange := ⟨⟨⟨0, 0⟩, ""⟩⟩

/-- The scan loop of `StatusOnDate`: walk the changes in order, breaking
at the first change whose (time-of-day-truncated) date is after the target
date, and remember the status of the last change not after it.
`currentStatus` starts as the empty string. -/
def statusScan (date : ℤ) : List StatusChange → String → String
  | [], cur => cur
  | c :: cs, cur =>
    if date < c.timestamp.day then cur
    else statusScan date cs c.status

/-- `(*StatusTimeline).StatusOnDate`: empty timeline gives `"unknown"`;
otherwise scan for the last change on or before the date (day
granularity) and fall back to the first change's status when the scan
never matched (`currentStatus == ""`). -/
def StatusOnDate (changes : List StatusChange) (date : Tm) : String :=
  if changes = [] then "unknown"
  else
    let cur := statusScan date.day changes ""
    if cur = "" then (changes.headD default).status
    else cur

theorem statusScan_eq (date : ℤ) :
    ∀ (cs : List StatusChange) (cur : String),
      cs.Pairwise (fun a b => a.timestamp.day ≤ b.timestamp.day) →
      statusScan date cs cur =
        ((cs.filter (fun c => c.timestamp.day ≤ date)).getLastD ⟨⟨0, 0⟩, cur⟩).status := by
  intro cs
  induction cs with
  | nil => intro cur _; rfl
  | cons c cs ih =>
      intro cur hs
      by_cases h : date < c.timestamp.day
      · have hnone : cs.filter (fun x => decide (x.timestamp.day ≤ date)) = [] := by
          rw [List.filter_eq_nil_iff]
          intro a ha
          have := (List.pairwise_cons.mp hs).1 a ha
          simp only [decide_eq_true_eq]
          omega
        simp only [statusScan, if_pos h]
        rw [List.filter_cons_of_neg (by simpa using not_le.mpr h), hnone]
        rfl
      · push_neg at h
        simp only [statusScan, if_neg (not_lt.mpr h)]
        rw [ih c.status (List.pairwise_cons.mp hs).2,
          List.filter_cons_of_pos (by simpa using h)]
        cases hcs : cs.filter (fun x => decide (x.timestamp.day ≤ date)) with
        | nil => rfl
        | cons d ds =>
            cases h2 : (d :: ds).getLast? with
            | none => simp at h2
            | some a => simp [List.getLastD, h2]

/-- **C6 counterexample.** On the timeline
`[(day 0, "open"), (day 1, "")]` (ascending) and date `day 1`, the latest
change on or before the date has status `""`, but `StatusOnDate` returns
`"open"`: the empty-string sentinel used by the scan makes the code fall
back to the earliest status, so "returns the status of the latest change
whose calendar date is ≤ D" is false as stated. -/
theorem StatusOnDate_cex :
    (([⟨⟨0, 0⟩, "open"⟩, ⟨⟨1, 0⟩, ""⟩] : List StatusChange).filter
        (fun c => c.timestamp.day ≤ (1 : ℤ))).getLast? =
      some (⟨⟨1, 0⟩, ""⟩ : StatusChange) ∧
    StatusOnDate [⟨⟨0, 0⟩, "open"⟩, ⟨⟨1, 0⟩, ""⟩] ⟨1, 0⟩ = "open" ∧
    ("open" : String) ≠ "" := by
  refine ⟨?_, ?_, by simp⟩
  · norm_num [List.filter]
  · unfold StatusOnDate
    rw [if_neg (by simp)]
    norm_num [statusScan]

/-- **C6 (amended).** For every timeline whose changes are ascending by
day and all carry a *nonempty* status string (as `buildStatusTimeline`
produces for well-formed payloads — `"unknown"` for malformed ones), and
every date `D`: an empty timeline yields `"unknown"`; if some change's
day is ≤ D, `StatusOnDate` returns the status of the latest such change;
otherwise it returns the earliest change's status.  (The nonemptiness
proviso is forced by the counterexample: an empty-string status makes the
scan's sentinel fire and the earliest status is returned instead.)
Time-of-day is ignored throughout: only the `day` fields matter. -/
theorem StatusOnDate_spec (changes : List StatusChange) (date : Tm)
    (hsorted : changes.Pairwise (fun a b => a.timestamp.day ≤ b.timestamp.day))
    (hstatus : ∀ c ∈ changes, c.status ≠ "") :
    (changes = [] → StatusOnDate changes date = "unknown") ∧
    (∀ c, (changes.filter (fun x => x.timestamp.day ≤ date.day)).getLast? = some c →
      StatusOnDate changes date = c.status) ∧
    (changes ≠ [] → changes.filter (fun x => x.timestamp.day ≤ date.day) = [] →
      StatusOnDate changes date = (changes.headD default).status) := by
  refine ⟨?_, ?_, ?_⟩
  · intro h; simp [StatusOnDate, h]
  · intro c hget
    have hmemf : c ∈ changes.filter (fun x => decide (x.timestamp.day ≤ date.day)) := by
      obtain ⟨h1, h2⟩ := List.mem_getLast?_eq_getLast (l := changes.filter _) hget
      rw [h2]; exact List.getLast_mem h1
    have hmem : c ∈ changes := (List.mem_filter.mp hmemf).1
    have hne : changes ≠ [] := List.ne_nil_of_mem hmem
    have hscan := statusScan_eq date.day changes "" hsorted
    unfold StatusOnDate
    rw [if_neg hne, hscan]
    have hD : (changes.filter (fun x => decide (x.timestamp.day ≤ date.day))).getLastD
        ⟨⟨0, 0⟩, ""⟩ = c := by
      rw [List.getLastD_eq_getLast?, hget]; rfl
    rw [hD, if_neg (hstatus c hmem)]
  · intro hne hfil
    have hscan := statusScan_eq date.day changes "" hsorted
    unfold StatusOnDate
    rw [if_neg hne, hscan, hfil]
    rfl

/-- Witness for `StatusOnDate_spec` on the timeline
`[(day 0, "open"), (day 2, "inProgress")]` at date `day 1`:
the status in effect is `"open"`. -/
theorem StatusOnDate_spec_witness :
    StatusOnDate [⟨⟨0, 0⟩, "open"⟩, ⟨⟨2, 0⟩, "inProgress"⟩] ⟨1, 7⟩ = "open" :=
  (StatusOnDate_spec [⟨⟨0, 0⟩, "open"⟩, ⟨⟨2, 0⟩, "inProgress"⟩] ⟨1, 7⟩
      (by norm_num [List.pairwise_cons])
      (by intro c hc; rcases List.mem_cons.mp hc with rfl | hc; · simp
          rcases List.mem_cons.mp hc with rfl | hc; · simp
          simp at hc)).2.1
    ⟨⟨0, 0⟩, "open"⟩ (by norm_num [List.filter])

/-! ## Weekly schedule state (`weekly_state.go`, `pkg/random`) -/

/-- The swap `days[i], days[j] = days[j], days[i]` on a list. -/
def swapL (l : List ℕ) (i j : ℕ) : List ℕ :=
  let a := l.getD i 0
  let b := l.getD j 0
  (l.set i b).set j a

/-- The Fisher–Yates loop of `SelectRandomDays`/`SelectRandomItems`:
`for i := len-1; i > 0; i-- { j := rand.Intn(i+1); swap(i, j) }`.
`draw i` is the value drawn by `rand.Intn(i+1)` (so `draw i ≤ i`). -/
def fyShuffle (draw : ℕ → ℕ) : ℕ → List ℕ → List ℕ
  | 0, l => l
  | i + 1, l => fyShuffle draw i (swapL l (i + 1) (draw (i + 1)))

/-- `random.SelectRandomDays(n)`: empty for `n ≤ 0` or `n > 5`, otherwise
the first `n` entries of a Fisher–Yates shuffle of `[0,1,2,3,4]`
(weekday indices, 0 = Monday … 4 = Friday). -/
def SelectRandomDays (draw : ℕ → ℕ) (n : ℤ) : List ℕ :=
  if n ≤ 0 ∨ 5 < n then []
  else (fyShuffle draw 4 [0, 1, 2, 3, 4]).take n.toNat

/-- Dates are embedded as day numbers (`ℤ`); `goWeekdayZ` is
`time.Time.Weekday()` under the alignment day 0 = Sunday:
0 = Sunday, 1 = Monday, …, 6 = Saturday. -/
def goWeekdayZ (d : ℤ) : ℤ := d % 7

/-- `dateutil.StartOfWeek`: the Monday of the date's week
(`weekday == 0` ↦ 7, then subtract `weekday - 1` days). -/
def startOfWeekZ (d : ℤ) : ℤ :=
  d - ((if goWeekdayZ d = 0 then 7 else goWeekdayZ d) - 1)

/-- `dateutil.EndOfWeek`: the Sunday of the date's week. -/
def endOfWeekZ (d : ℤ) : ℤ := startOfWeekZ d + 6

/-- `random.SelectRandomWeekdayDates(week, n)`: guard `n ≤ 0 || n > 5`,
compute the Monday of the week, map the selected weekday indices onto
dates. -/
def SelectRandomWeekdayDates (week : ℤ) (n : ℤ) (draw : ℕ → ℕ) : List ℤ :=
  if n ≤ 0 ∨ 5 < n then []
  else
    let monday := week - ((if goWeekdayZ week = 0 then 7 else goWeekdayZ week) - 1)
    (SelectRandomDays draw n).map fun (i : ℕ) => monday + (i : ℤ)

/-- `WeeklyState` (`weekly_state.go`): ISO year/week, week bounds, and the
per-task selected dates. -/
structure WeeklyState where
  year : ℤ
  week : ℤ
  startDate : ℤ
  endDate : ℤ
  selectedDays : List (String × List ℤ)

/-- `WeeklyStateManager.SelectDaysForWeek`: replace the state wholesale
with the current ISO week (`iso` stands for `dateutil.GetWeekNumber`),
the week's Monday/Sunday bounds, and for each configured weekly task the
dates chosen by `SelectRandomWeekdayDates(date, daysPerWeek)`.
`draw t i` is the `rand.Intn(i+1)` draw consumed for task `t`. -/
def SelectDaysForWeek (iso : ℤ → ℤ × ℤ) (date : ℤ)
    (weeklyTasks : List (String × ℤ)) (draw : String → ℕ → ℕ) : WeeklyState :=
  { year := (iso date).1
    week := (iso date).2
    startDate := startOfWeekZ date
    endDate := endOfWeekZ date
    selectedDays := weeklyTasks.map fun t =>
      (t.1, SelectRandomWeekdayDates date t.2 (draw t.1)) }

theorem fyShuffle_four (draw : ℕ → ℕ) (l : List ℕ) :
    fyShuffle draw 4 l =
      swapL (swapL (swapL (swapL l 4 (draw 4)) 3 (draw 3)) 2 (draw 2)) 1 (draw 1) :=
  rfl

theorem swapChain_prop :
    ∀ (a : Fin 5) (b : Fin 4) (c : Fin 3) (d : Fin 2),
      (swapL (swapL (swapL (swapL [0, 1, 2, 3, 4] 4 a.val) 3 b.val) 2 c.val) 1 d.val).length = 5 ∧
      (swapL (swapL (swapL (swapL [0, 1, 2, 3, 4] 4 a.val) 3 b.val) 2 c.val) 1 d.val).Nodup ∧
      ∀ x ∈ swapL (swapL (swapL (swapL [0, 1, 2, 3, 4] 4 a.val) 3 b.val) 2 c.val) 1 d.val,
        x < 5 := by
  decide

theorem fyShuffle_props (draw : ℕ → ℕ) (hdraw : ∀ i, draw i ≤ i) :
    (fyShuffle draw 4 [0, 1, 2, 3, 4]).length = 5 ∧
    (fyShuffle draw 4 [0, 1, 2, 3, 4]).Nodup ∧
    ∀ x ∈ fyShuffle draw 4 [0, 1, 2, 3, 4], x < 5 := by
  rw [fyShuffle_four]
  exact swapChain_prop ⟨draw 4, Nat.lt_succ_of_le (hdraw 4)⟩
    ⟨draw 3, Nat.lt_succ_of_le (hdraw 3)⟩
    ⟨draw 2, Nat.lt_succ_of_le (hdraw 2)⟩
    ⟨draw 1, Nat.lt_succ_of_le (hdraw 1)⟩

theorem goWeekdayZ_startOfWeekZ_add (d : ℤ) (i : ℕ) (hi : i ≤ 4) :
    goWeekdayZ (startOfWeekZ d + (i : ℤ)) = 1 + (i : ℤ) := by
  unfold startOfWeekZ goWeekdayZ
  by_cases h : d % 7 = 0 <;> simp only [goWeekdayZ, h, if_true, if_false] <;> omega

theorem lookup_map_selected {β : Type} (tasks : List (String × ℤ))
    (g : String × ℤ → β) (k : String) (dpw : ℤ)
    (hmem : (k, dpw) ∈ tasks) (hnodup : (tasks.map Prod.fst).Nodup) :
    (tasks.map fun t => (t.1, g t)).lookup k = some (g (k, dpw)) := by
  induction tasks with
  | nil => simp at hmem
  | cons t ts ih =>
      simp only [List.map_cons, List.nodup_cons] at hnodup
      rcases List.mem_cons.mp hmem with rfl | hmem2
      · simp [List.lookup]
      · have hk2 : (k == t.1) = false := by
          rw [beq_eq_false_iff_ne]
          intro he
          exact hnodup.1 (he ▸ List.mem_map_of_mem Prod.fst hmem2)
        simp only [List.map_cons, List.lookup, hk2]
        exact ih hmem2 hnodup.2

theorem SelectRandomWeekdayDates_inRange (date : ℤ) (n : ℤ) (draw : ℕ → ℕ)
    (hdraw : ∀ i, draw i ≤ i) (h1 : 1 ≤ n) (h5 : n ≤ 5) :
    ((SelectRandomWeekdayDates date n draw).length : ℤ) = n ∧
    (SelectRandomWeekdayDates date n draw).Nodup ∧
    ∀ d ∈ SelectRandomWeekdayDates date n draw,
      startOfWeekZ date ≤ d ∧ d ≤ endOfWeekZ date ∧
      1 ≤ goWeekdayZ d ∧ goWeekdayZ d ≤ 5 := by
  have hguard : ¬ (n ≤ 0 ∨ 5 < n) := by omega
  have hprops := fyShuffle_props draw hdraw
  have htake : (fyShuffle draw 4 [0, 1, 2, 3, 4]).take n.toNat ⊆
      fyShuffle draw 4 [0, 1, 2, 3, 4] := List.take_subset _ _
  refine ⟨?_, ?_, ?_⟩
  · unfold SelectRandomWeekdayDates SelectRandomDays
    rw [if_neg hguard, if_neg hguard, List.length_map, List.length_take, hprops.1]
    omega
  · unfold SelectRandomWeekdayDates SelectRandomDays
    rw [if_neg hguard, if_neg hguard]
    refine List.Nodup.map (fun a b hab => ?_) ?_
    · omega
    · exact (hprops.2.1).sublist (List.take_sublist _ _)
  · intro d hd
    unfold SelectRandomWeekdayDates SelectRandomDays at hd
    rw [if_neg hguard, if_neg hguard] at hd
    obtain ⟨i, hi, rfl⟩ := List.mem_map.mp hd
    have hi5 : i < 5 := hprops.2.2 i (htake hi)
    have hmon : date - ((if goWeekdayZ date = 0 then 7 else goWeekdayZ date) - 1) =
        startOfWeekZ date := rfl
    rw [hmon]
    have hw := goWeekdayZ_startOfWeekZ_add date i (by omega)
    refine ⟨by omega, ?_, by omega, by omega⟩
    unfold endOfWeekZ
    omega

/-- **C7 counterexample.** With a single weekly task configured for 6 days
per week, `SelectDaysForWeek` stores the *empty* list for it
(`SelectRandomWeekdayDates` returns empty for `n > 5`), so the stored
length does not equal the configured days-per-week: the invariant fails
"for every configured days-per-week value". -/
theorem SelectDaysForWeek_invariant_cex :
    ((SelectDaysForWeek (fun _ => (0, 0)) 0 [("T", 6)]
        (fun _ _ => 0)).selectedDays.lookup "T") = some [] ∧
    ¬ (((([] : List ℤ)).length : ℤ) = 6) := by
  constructor
  · rfl
  · decide

/-- **C7 (amended).** After `SelectDaysForWeek(date, weeklyTasks)`, for
each task key in `weeklyTasks` (keys unique, draws in range): *when the
configured days-per-week lies in 1..5*, the stored date list has length
equal to days-per-week, and its values are distinct Monday–Friday dates
within the stored week's `[startDate, endDate]` range; for a configured
value outside 1..5 the stored list is empty (the amendment forced by
the counterexample). -/
theorem SelectDaysForWeek_invariant (iso : ℤ → ℤ × ℤ) (date : ℤ)
    (tasks : List (String × ℤ)) (draw : String → ℕ → ℕ)
    (k : String) (dpw : ℤ) (hmem : (k, dpw) ∈ tasks)
    (hnodup : (tasks.map Prod.fst).Nodup)
    (hdraw : ∀ i, draw k i ≤ i) :
    ∃ l, (SelectDaysForWeek iso date tasks draw).selectedDays.lookup k = some l ∧
      (1 ≤ dpw → dpw ≤ 5 →
        ((l.length : ℤ) = dpw ∧ l.Nodup ∧
          ∀ d ∈ l, (SelectDaysForWeek iso date tasks draw).startDate ≤ d ∧
            d ≤ (SelectDaysForWeek iso date tasks draw).endDate ∧
            1 ≤ goWeekdayZ d ∧ goWeekdayZ d ≤ 5)) ∧
      ((dpw ≤ 0 ∨ 5 < dpw) → l = []) := by
  refine ⟨SelectRandomWeekdayDates date dpw (draw k), ?_, ?_, ?_⟩
  · exact lookup_map_selected tasks
      (fun t => SelectRandomWeekdayDates date t.2 (draw t.1)) k dpw hmem hnodup
  · intro h1 h5
    exact SelectRandomWeekdayDates_inRange date dpw (draw k) hdraw h1 h5
  · intro hout
    unfold SelectRandomWeekdayDates
    rw [if_pos hout]

/-- Witness for `SelectDaysForWeek_invariant`: one task, 2 days per week,
degenerate draws. -/
theorem SelectDaysForWeek_invariant_witness :
    ∃ l, (SelectDaysForWeek (fun _ => (2025, 1)) 10 [("T", 2)]
        (fun _ _ => 0)).selectedDays.lookup "T" = some l ∧
      (1 ≤ (2 : ℤ) → (2 : ℤ) ≤ 5 →
        ((l.length : ℤ) = 2 ∧ l.Nodup ∧
          ∀ d ∈ l, (SelectDaysForWeek (fun _ => (2025, 1)) 10 [("T", 2)]
              (fun _ _ => 0)).startDate ≤ d ∧
            d ≤ (SelectDaysForWeek (fun _ => (2025, 1)) 10 [("T", 2)]
              (fun _ _ => 0)).endDate ∧
            1 ≤ goWeekdayZ d ∧ goWeekdayZ d ≤ 5)) ∧
      (((2 : ℤ) ≤ 0 ∨ (5 : ℤ) < 2) → l = []) :=
  SelectDaysForWeek_invariant (fun _ => (2025, 1)) 10 [("T", 2)] (fun _ _ => 0)
    "T" 2 (by simp) (by simp) (fun i => Nat.zero_le i)

/-! ## Reconciliation engine (`Manager.cleanupAndNormalize`, manager.go)

Persisted worklogs carry ISO-duration strings; `ParseISO8601Duration`
always yields a whole number of minutes (every component is integer
arithmetic, including the truncated `secs/60`), so worklogs are embedded
with their parsed duration as an integer `duration` field. -/

/-- A persisted worklog (`tracker.Worklog`), at the granularity the
reconciliation pass uses: id, issue key, comment, and parsed duration in
minutes. -/
structure Worklog where
  id : ℕ
  issueKey : String
  comment : String
  duration : ℤ
deriving DecidableEq

instance : Inhabited Worklog := ⟨⟨0, "", "", 0⟩⟩

/-- Total parsed minutes of a worklog list. -/
def sumDur (ws : List Worklog) : ℤ :=
  (ws.map Worklog.duration).sum

/-- The duplicate-grouping key `(issueKey, comment)`. -/
def keyOf (w : Worklog) : String × String :=
  (w.issueKey, w.comment)

/-- One pass of the inner loop of the Go exchange sort
(`for j := i+1; ...: if durJ > durI { swap }`): returns the element left
at position `i` after the sweep (the running maximum) and the sweep's
rearrangement of the rest. -/
def sweep (cur : Worklog) : List Worklog → Worklog × List Worklog
  | [] => (cur, [])
  | x :: xs =>
    if cur.duration < x.duration then
      let r := sweep x xs
      (r.1, cur :: r.2)
    else
      let r := sweep cur xs
      (r.1, x :: r.2)

theorem sweep_length (xs : List Worklog) :
    ∀ cur, (sweep cur xs).2.length = xs.length := by
  induction xs with
  | nil => intro cur; rfl
  | cons x xs ih =>
      intro cur
      unfold sweep
      by_cases h : cur.duration < x.duration <;> simp [h, ih]

/-- The double-for descending exchange sort used on duplicate groups and
on the kept list (sorts by duration, largest first). -/
def exchangeSort : List Worklog → List Worklog
  | [] => []
  | x :: xs =>
    let r := sweep x xs
    r.1 :: exchangeSort r.2
termination_by l => l.length
decreasing_by simp [sweep_length]

/-- Worklogs of `ws` sharing the grouping key `k` (one Go map bucket). -/
def groupOf (ws : List Worklog) (k : String × String) : List Worklog :=
  ws.filter fun w => keyOf w = k

/-- The distinct grouping keys, in first-occurrence order (the embedding
fixes the Go map's unspecified iteration order; no theorem below depends
on the choice). -/
def groupKeys (ws : List Worklog) : List (String × String) :=
  (ws.map keyOf).dedup

/-- Worklogs kept from one duplicate group: a singleton group is kept
as-is, otherwise the group is sorted descending and the largest kept. -/
def keepOf (g : List Worklog) : List Worklog :=
  if g.length = 1 then g else (exchangeSort g).take 1

/-- Worklogs deleted from one duplicate group (everything but the kept
largest). -/
def deleteOf (g : List Worklog) : List Worklog :=
  if g.length = 1 then [] else (exchangeSort g).drop 1

/-- Step 5 of `cleanupAndNormalize`: the `toKeep` list. -/
def dedupKeep (ws : List Worklog) : List Worklog :=
  ((groupKeys ws).map fun k => keepOf (groupOf ws k)).flatten

/-- Step 5 of `cleanupAndNormalize`: the `toDelete` list. -/
def dedupDelete (ws : List Worklog) : List Worklog :=
  ((groupKeys ws).map fun k => deleteOf (groupOf ws k)).flatten

/-- Step 8's loop: walk the (descending-sorted) kept list with running
total `acc`; keep a worklog if it still fits under the target, delete it
otherwise, and continue with the rest either way. -/
def trimLoop (T : ℤ) : List Worklog → ℤ → List Worklog × List Worklog
  | [], _ => ([], [])
  | w :: ws, acc =>
    if acc + w.duration ≤ T then
      let r := trimLoop T ws (acc + w.duration)
      (w :: r.1, r.2)
    else
      let r := trimLoop T ws acc
      (r.1, w :: r.2)

/-- Step 8 of `cleanupAndNormalize`: sort the kept list descending, then
greedily keep entries that fit (`finalKeep`, first component) and delete
the ones that would exceed the target (second component). -/
def trimStep (T : ℤ) (toKeep : List Worklog) : List Worklog × List Worklog :=
  trimLoop T (exchangeSort toKeep) 0

/-- Step 9's scan for the worklog to adjust: running best index and best
value, initialized to `(0, 0)`, strict improvement only. -/
def findLargestGo : List Worklog → ℕ → ℕ → ℤ → ℕ × ℤ
  | [], _, bi, bv => (bi, bv)
  | w :: ws, i, bi, bv =>
    if bv < w.duration then findLargestGo ws (i + 1) i w.duration
    else findLargestGo ws (i + 1) bi bv

/-- Step 9: index and duration of the (first) largest kept worklog. -/
def findLargest (ws : List Worklog) : ℕ × ℤ :=
  findLargestGo ws 0 0 0

/-- Step 9 of `cleanupAndNormalize` (final adjustment to the exact
target): if the kept sum differs from the target and something was kept,
the largest kept worklog is deleted and recreated with its duration moved
by the residual, encoded as
`fmt.Sprintf("PT%dH%dM", int(new/60), int(new)%60)` — whose parsed value
is `60*(new tdiv 60) + new tmod 60` (Go's truncated division) — provided
the new duration is positive.  `dels` carries the deletion count of the
earlier steps. -/
def adjustStep (T : ℤ) (kept : List Worklog) (dels : ℕ) : List Worklog × ℕ × ℕ :=
  if sumDur kept ≠ T ∧ 0 < kept.length then
    let fl := findLargest kept
    let newMinutes := fl.2 + (T - sumDur kept)
    if 0 < newMinutes then
      (kept.eraseIdx fl.1 ++
        [{ kept.getD fl.1 default with
            duration := 60 * (Int.tdiv newMinutes 60) + Int.tmod newMinutes 60 }],
       dels + 1, 1)
    else (kept, dels, 0)
  else (kept, dels, 0)

/-- `Manager.cleanupAndNormalize`, as a transformer of the day's persisted
worklog multiset.  Returns the resulting persisted state and the numbers
of `DeleteWorklog` and `CreateWorklog` calls performed.  External calls
succeed (the claims assume no intervening external change/failure).
Pipeline: no-op on an empty day or an already-exact total; otherwise
duplicate suppression (step 5/6), overage trim when the kept sum still
exceeds the target (step 8), final adjustment (step 9). -/
def cleanupAndNormalize (T : ℤ) (ws : List Worklog) : List Worklog × ℕ × ℕ :=
  if ws.length = 0 then (ws, 0, 0)
  else if sumDur ws = T then (ws, 0, 0)
  else
    let toKeep0 := dedupKeep ws
    let toDelete0 := dedupDelete ws
    let tr := if T < sumDur toKeep0 then trimStep T toKeep0 else (toKeep0, [])
    adjustStep T tr.1 (toDelete0.length + tr.2.length)

theorem sweep_perm (xs : List Worklog) :
    ∀ cur, List.Perm ((sweep cur xs).1 :: (sweep cur xs).2) (cur :: xs) := by
  induction xs with
  | nil => intro cur; exact List.Perm.refl _
  | cons x xs ih =>
      intro cur
      unfold sweep
      by_cases h : cur.duration < x.duration
      · simp only [h, if_true]
        exact (List.Perm.swap cur (sweep x xs).1 (sweep x xs).2).trans
          ((ih x).cons cur)
      · simp only [h, if_false]
        exact ((List.Perm.swap x (sweep cur xs).1 (sweep cur xs).2).trans
          ((ih cur).cons x)).trans (List.Perm.swap cur x xs)

theorem sweep_max (xs : List Worklog) :
    ∀ cur, cur.duration ≤ (sweep cur xs).1.duration ∧
      ∀ y ∈ xs, y.duration ≤ (sweep cur xs).1.duration := by
  induction xs with
  | nil => intro cur; exact ⟨le_refl _, by simp⟩
  | cons x xs ih =>
      intro cur
      unfold sweep
      by_cases h : cur.duration < x.duration
      · simp only [h, if_true]
        refine ⟨le_of_lt (lt_of_lt_of_le h (ih x).1), ?_⟩
        intro y hy
        rcases List.mem_cons.mp hy with rfl | hy
        · exact (ih y).1
        · exact (ih x).2 y hy
      · simp only [h, if_false]
        refine ⟨(ih cur).1, ?_⟩
        intro y hy
        rcases List.mem_cons.mp hy with rfl | hy
        · exact le_trans (not_lt.mp h) (ih cur).1
        · exact (ih cur).2 y hy

theorem exchangeSort_perm : ∀ (n : ℕ) (l : List Worklog), l.length ≤ n →
    List.Perm (exchangeSort l) l := by
  intro n
  induction n with
  | zero =>
      intro l hl
      rw [List.length_eq_zero.mp (Nat.le_zero.mp hl)]
      simp [exchangeSort]
  | succ n ih =>
      intro l hl
      match l with
      | [] => simp [exchangeSort]
      | x :: xs =>
          rw [exchangeSort]
          have hlen : (sweep x xs).2.length ≤ n := by
            rw [sweep_length]
            simpa using hl
          exact ((ih _ hlen).cons _).trans (sweep_perm xs x)

theorem exchangeSort_perm' (l : List Worklog) : List.Perm (exchangeSort l) l :=
  exchangeSort_perm l.length l (le_refl _)

theorem exchangeSort_sorted : ∀ (n : ℕ) (l : List Worklog), l.length ≤ n →
    (exchangeSort l).Sorted (fun a b => b.duration ≤ a.duration) := by
  intro n
  induction n with
  | zero =>
      intro l hl
      rw [List.length_eq_zero.mp (Nat.le_zero.mp hl)]
      simp [exchangeSort]
  | succ n ih =>
      intro l hl
      match l with
      | [] => simp [exchangeSort]
      | x :: xs =>
          rw [exchangeSort, List.sorted_cons]
          have hlen : (sweep x xs).2.length ≤ n := by
            rw [sweep_length]
            simpa using hl
          refine ⟨?_, ih _ hlen⟩
          intro b hb
          have hb2 : b ∈ (sweep x xs).2 := ((exchangeSort_perm n _ hlen).mem_iff).mp hb
          have hb3 : b ∈ x :: xs :=
            (sweep_perm xs x).subset (List.mem_cons_of_mem _ hb2)
          rcases List.mem_cons.mp hb3 with rfl | hb4
          · exact (sweep_max xs b).1
          · exact (sweep_max xs x).2 b hb4

theorem exchangeSort_sorted' (l : List Worklog) :
    (exchangeSort l).Sorted (fun a b => b.duration ≤ a.duration) :=
  exchangeSort_sorted l.length l (le_refl _)

theorem sumDur_nil : sumDur [] = 0 := rfl

theorem sumDur_cons (w : Worklog) (ws : List Worklog) :
    sumDur (w :: ws) = w.duration + sumDur ws := by
  simp [sumDur]

theorem sumDur_append (l1 l2 : List Worklog) :
    sumDur (l1 ++ l2) = sumDur l1 + sumDur l2 := by
  simp [sumDur]

theorem trimLoop_keep_subset (T : ℤ) :
    ∀ (l : List Worklog) (acc : ℤ), (trimLoop T l acc).1 ⊆ l := by
  intro l
  induction l with
  | nil => intro acc; simp [trimLoop]
  | cons w ws ih =>
      intro acc
      unfold trimLoop
      by_cases h : acc + w.duration ≤ T
      · simp only [h, if_true]
        exact List.cons_subset_cons w (ih (acc + w.duration))
      · simp only [h, if_false]
        exact (ih acc).trans (List.subset_cons_self _ _)

theorem trimLoop_sum_le (T : ℤ) :
    ∀ (l : List Worklog) (acc : ℤ), acc ≤ T →
      acc + sumDur (trimLoop T l acc).1 ≤ T := by
  intro l
  induction l with
  | nil => intro acc h; simpa [trimLoop, sumDur] using h
  | cons w ws ih =>
      intro acc hacc
      unfold trimLoop
      by_cases h : acc + w.duration ≤ T
      · simp only [h, if_true]
        have := ih (acc + w.duration) h
        rw [sumDur_cons]
        omega
      · simp only [h, if_false]
        exact ih acc hacc

/-! ### C2: the overage-trim step -/

/-- The greedy per-entry trimming discipline (the amended phrasing of the
spec's step 3): walking the sorted list with a running kept-sum, an entry
is kept when it still fits under the target and deleted when it would
exceed it — deletion applies to that entry only; the walk continues and a
later smaller entry may still be kept. -/
inductive GreedyTrim (T : ℤ) : ℤ → List Worklog → List Worklog → List Worklog → Prop
  | nil (acc : ℤ) : GreedyTrim T acc [] [] []
  | keep (acc : ℤ) (w : Worklog) (l k d : List Worklog) :
      acc + w.duration ≤ T → GreedyTrim T (acc + w.duration) l k d →
      GreedyTrim T acc (w :: l) (w :: k) d
  | omit (acc : ℤ) (w : Worklog) (l k d : List Worklog) :
      ¬ acc + w.duration ≤ T → GreedyTrim T acc l k d →
      GreedyTrim T acc (w :: l) k (w :: d)

theorem trimLoop_greedy (T : ℤ) :
    ∀ (l : List Worklog) (acc : ℤ),
      GreedyTrim T acc l (trimLoop T l acc).1 (trimLoop T l acc).2 := by
  intro l
  induction l with
  | nil => intro acc; exact GreedyTrim.nil acc
  | cons w ws ih =>
      intro acc
      unfold trimLoop
      by_cases h : acc + w.duration ≤ T
      · simp only [h, if_true]
        exact GreedyTrim.keep acc w ws _ _ h (ih (acc + w.duration))
      · simp only [h, if_false]
        exact GreedyTrim.omit acc w ws _ _ h (ih acc)

/-- **C2 counterexample.** Kept entries with durations `360, 300, 180` and
target `600`: in descending order, the `300` entry is the first that
would exceed the target (`360 + 300 > 600`), so the claim says it *and
every entry after it* are deleted.  The code instead deletes only the
`300` entry and keeps the later `180` entry (`360 + 180 ≤ 600`):
`finalKeep = [360, 180]`, deleted = `[300]`. -/
theorem trimStep_suffix_cex :
    exchangeSort [⟨1, "A", "c", 360⟩, ⟨2, "B", "c", 300⟩, ⟨3, "C", "c", 180⟩] =
      [⟨1, "A", "c", 360⟩, ⟨2, "B", "c", 300⟩, ⟨3, "C", "c", 180⟩] ∧
    ¬ ((360 : ℤ) + 300 ≤ 600) ∧
    (trimStep 600 [⟨1, "A", "c", 360⟩, ⟨2, "B", "c", 300⟩, ⟨3, "C", "c", 180⟩]).2 =
      [⟨2, "B", "c", 300⟩] ∧
    (⟨3, "C", "c", 180⟩ : Worklog) ∈
      (trimStep 600 [⟨1, "A", "c", 360⟩, ⟨2, "B", "c", 300⟩, ⟨3, "C", "c", 180⟩]).1 := by
  have hsort : exchangeSort [⟨1, "A", "c", 360⟩, ⟨2, "B", "c", 300⟩, ⟨3, "C", "c", 180⟩] =
      [⟨1, "A", "c", 360⟩, ⟨2, "B", "c", 300⟩, ⟨3, "C", "c", 180⟩] := by
    simp [exchangeSort, sweep]
  refine ⟨hsort, by norm_num, ?_, ?_⟩ <;>
    simp [trimStep, hsort, trimLoop]

/-- **C2 (amended).** When the kept-entry sum still exceeds the target,
the kept entries are sorted by duration descending (the sort is a
permutation of the kept list) and walked greedily: each entry is kept
while the running kept-sum stays `≤ target`, and an entry that would
exceed the target is deleted *individually* — the walk continues past it,
so a later, smaller entry can still be kept (the "and every entry after
it is deleted" part of the claim is what the counterexample refutes). -/
theorem trimStep_greedy_spec (T : ℤ) (toKeep : List Worklog) :
    (exchangeSort toKeep).Sorted (fun a b => b.duration ≤ a.duration) ∧
    List.Perm (exchangeSort toKeep) toKeep ∧
    GreedyTrim T 0 (exchangeSort toKeep) (trimStep T toKeep).1 (trimStep T toKeep).2 :=
  ⟨exchangeSort_sorted' toKeep, exchangeSort_perm' toKeep,
    trimLoop_greedy T (exchangeSort toKeep) 0⟩

/-! ### C4: the duplicate-suppression step -/

theorem keepOf_subset (g : List Worklog) : keepOf g ⊆ g := by
  unfold keepOf
  by_cases h : g.length = 1
  · simp [h]
  · rw [if_neg h]
    exact (List.take_subset _ _).trans (exchangeSort_perm' g).subset

theorem deleteOf_subset (g : List Worklog) : deleteOf g ⊆ g := by
  unfold deleteOf
  by_cases h : g.length = 1
  · simp [h]
  · rw [if_neg h]
    exact (List.drop_subset _ _).trans (exchangeSort_perm' g).subset

theorem mem_groupOf {ws : List Worklog} {k : String × String} {w : Worklog}
    (h : w ∈ groupOf ws k) : w ∈ ws ∧ keyOf w = k := by
  unfold groupOf at h
  have h2 := List.mem_filter.mp h
  exact ⟨h2.1, by simpa using h2.2⟩

theorem mem_groupOf_self {ws : List Worklog} {w : Worklog}
    (hw : w ∈ ws) : w ∈ groupOf ws (keyOf w) := by
  unfold groupOf
  exact List.mem_filter.mpr ⟨hw, by simp⟩

theorem dedupKeep_subset {ws : List Worklog} {w : Worklog}
    (h : w ∈ dedupKeep ws) : w ∈ ws := by
  unfold dedupKeep at h
  obtain ⟨l, hl, hw⟩ := List.mem_flatten.mp h
  obtain ⟨k, _, rfl⟩ := List.mem_map.mp hl
  exact (mem_groupOf (keepOf_subset _ hw)).1

theorem filter_flatten_key (f : String × String → List Worklog)
    (hkey : ∀ k, ∀ w ∈ f k, keyOf w = k) :
    ∀ (ks : List (String × String)) (p : String × String), ks.Nodup → p ∈ ks →
      (List.flatten (ks.map f)).filter (fun w => keyOf w = p) = f p := by
  intro ks
  induction ks with
  | nil => intro p _ hp; simp at hp
  | cons k ks ih =>
      intro p hnd hp
      simp only [List.map_cons, List.flatten_cons, List.filter_append]
      rcases List.mem_cons.mp hp with rfl | hp2
      · have h1 : (f p).filter (fun w => decide (keyOf w = p)) = f p :=
          List.filter_eq_self.mpr fun w hw => by simp [hkey p w hw]
        have h2 : (List.flatten (ks.map f)).filter (fun w => decide (keyOf w = p)) = [] := by
          rw [List.filter_eq_nil_iff]
          intro w hw
          obtain ⟨l, hl, hwl⟩ := List.mem_flatten.mp hw
          obtain ⟨k', hk', rfl⟩ := List.mem_map.mp hl
          have hkw : keyOf w = k' := hkey k' w hwl
          have hk'p : k' ≠ p := fun he => (List.nodup_cons.mp hnd).1 (he ▸ hk')
          simp [hkw, hk'p]
        rw [h1, h2, List.append_nil]
      · have hkp : k ≠ p := fun he => (List.nodup_cons.mp hnd).1 (he ▸ hp2)
        have h1 : (f k).filter (fun w => decide (keyOf w = p)) = [] := by
          rw [List.filter_eq_nil_iff]
          intro w hw
          simp [hkey k w hw, hkp]
        rw [h1, List.nil_append]
        exact ih p (List.nodup_cons.mp hnd).2 hp2

theorem mem_groupKeys {ws : List Worklog} {p : String × String}
    (h : (groupOf ws p) ≠ []) : p ∈ groupKeys ws := by
  obtain ⟨w, hw⟩ := List.exists_mem_of_ne_nil _ h
  obtain ⟨hws, hkey⟩ := mem_groupOf hw
  unfold groupKeys
  rw [List.mem_dedup]
  exact hkey ▸ List.mem_map_of_mem keyOf hws

/-- **C4 (amended).** Step 5 of the reconciliation pass (the
duplicate-suppression step, reached whenever the persisted total differs
from the target): every group of persisted worklogs sharing the same
`(issueKey, comment)` key with `k > 1` members contributes exactly one
member to the kept list — a member of the group of maximum duration —
and its other `k-1` members to the step's deletion list.  (The claim's
"reduced to exactly one surviving member ... after the pass" is refuted
by the counterexample: the later overage-trim step may delete the
survivor as well.) -/
theorem dedup_duplicate_groups (ws : List Worklog) (T : ℤ) (p : String × String)
    (hne : ws.length ≠ 0) (hT : sumDur ws ≠ T)
    (hk : 1 < (groupOf ws p).length) :
    ((dedupKeep ws).filter (fun w => keyOf w = p)).length = 1 ∧
    (∀ w ∈ (dedupKeep ws).filter (fun w => keyOf w = p),
        w ∈ groupOf ws p ∧ ∀ w' ∈ groupOf ws p, w'.duration ≤ w.duration) ∧
    ((dedupDelete ws).filter (fun w => keyOf w = p)).length =
      (groupOf ws p).length - 1 := by
  have hgne : groupOf ws p ≠ [] := by
    intro h
    rw [h] at hk
    simp at hk
  have hpmem : p ∈ groupKeys ws := mem_groupKeys hgne
  have hnd : (groupKeys ws).Nodup := List.nodup_dedup _
  have hkeyK : ∀ k, ∀ w ∈ keepOf (groupOf ws k), keyOf w = k :=
    fun k w hw => (mem_groupOf (keepOf_subset _ hw)).2
  have hkeyD : ∀ k, ∀ w ∈ deleteOf (groupOf ws k), keyOf w = k :=
    fun k w hw => (mem_groupOf (deleteOf_subset _ hw)).2
  have hK : (dedupKeep ws).filter (fun w => keyOf w = p) = keepOf (groupOf ws p) :=
    filter_flatten_key _ hkeyK (groupKeys ws) p hnd hpmem
  have hD : (dedupDelete ws).filter (fun w => keyOf w = p) = deleteOf (groupOf ws p) :=
    filter_flatten_key _ hkeyD (groupKeys ws) p hnd hpmem
  have hlen1 : (groupOf ws p).length ≠ 1 := by omega
  have hslen : (exchangeSort (groupOf ws p)).length = (groupOf ws p).length :=
    (exchangeSort_perm' _).length_eq
  obtain ⟨h, t, hht⟩ : ∃ h t, exchangeSort (groupOf ws p) = h :: t := by
    cases hs : exchangeSort (groupOf ws p) with
    | nil => rw [hs] at hslen; simp at hslen; omega
    | cons a l => exact ⟨a, l, rfl⟩
  have hkeep : keepOf (groupOf ws p) = [h] := by
    unfold keepOf
    rw [if_neg hlen1, hht]
    rfl
  have hdel : deleteOf (groupOf ws p) = t := by
    unfold deleteOf
    rw [if_neg hlen1, hht]
    rfl
  have hmax : ∀ w' ∈ groupOf ws p, w'.duration ≤ h.duration := by
    intro w' hw'
    have hw'2 : w' ∈ exchangeSort (groupOf ws p) := (exchangeSort_perm' _).mem_iff.mpr hw'
    rw [hht] at hw'2
    rcases List.mem_cons.mp hw'2 with rfl | hw'3
    · exact le_refl _
    · have := exchangeSort_sorted' (groupOf ws p)
      rw [hht, List.sorted_cons] at this
      exact this.1 w' hw'3
  have hhmem : h ∈ groupOf ws p :=
    (exchangeSort_perm' _).subset (hht ▸ List.mem_cons_self h t)
  refine ⟨by rw [hK, hkeep]; rfl, ?_, ?_⟩
  · intro w hw
    rw [hK, hkeep] at hw
    rcases List.mem_singleton.mp hw with rfl
    exact ⟨hhmem, hmax⟩
  · rw [hD, hdel]
    have : (h :: t).length = (groupOf ws p).length := hht ▸ hslen
    simp at this
    omega

/-- **C4 counterexample.** Two persisted worklogs with the same
`(issueKey, comment)` key, 600 minutes each, against a 480-minute target:
the duplicate step keeps one and deletes one, but the kept 600-minute
survivor then exceeds the target and the overage-trim step deletes it
too.  After the full pass the group has *zero* surviving members and 2
deletions were recorded — not "exactly one surviving member of maximum
duration and k-1 = 1 deletions" as the claim states for the pass. -/
theorem cleanup_duplicate_group_cex :
    (cleanupAndNormalize 480 [⟨1, "I", "c", 600⟩, ⟨2, "I", "c", 600⟩]).1 = [] ∧
    (cleanupAndNormalize 480 [⟨1, "I", "c", 600⟩, ⟨2, "I", "c", 600⟩]).2.1 = 2 ∧
    sumDur [⟨1, "I", "c", 600⟩, ⟨2, "I", "c", 600⟩] ≠ 480 ∧
    (groupOf [⟨1, "I", "c", 600⟩, ⟨2, "I", "c", 600⟩] ("I", "c")).length = 2 := by
  refine ⟨?_, ?_, by simp [sumDur], by simp [groupOf, keyOf]⟩ <;>
    simp [cleanupAndNormalize, adjustStep, sumDur, dedupKeep, dedupDelete, groupKeys,
      groupOf, keyOf, keepOf, deleteOf, exchangeSort, sweep, trimStep, trimLoop,
      findLargest, findLargestGo]

/-- Witness for `dedup_duplicate_groups` at the two-duplicate input. -/
theorem dedup_duplicate_groups_witness :
    ((dedupKeep [⟨1, "I", "c", 600⟩, ⟨2, "I", "c", 600⟩]).filter
        (fun w => keyOf w = ("I", "c"))).length = 1 ∧
    ((dedupDelete [⟨1, "I", "c", 600⟩, ⟨2, "I", "c", 600⟩]).filter
        (fun w => keyOf w = ("I", "c"))).length =
      (groupOf [⟨1, "I", "c", 600⟩, ⟨2, "I", "c", 600⟩] ("I", "c")).length - 1 := by
  have h := dedup_duplicate_groups [⟨1, "I", "c", 600⟩, ⟨2, "I", "c", 600⟩] 480
    ("I", "c") (by simp) (by simp [sumDur]) (by simp [groupOf, keyOf])
  exact ⟨h.1, h.2.2⟩

/-! ### C3: idempotence of the reconciliation pass -/

theorem findLargestGo_spec :
    ∀ (ws : List Worklog) (i bi : ℕ) (bv : ℤ),
      (findLargestGo ws i bi bv = (bi, bv) ∧ ∀ w ∈ ws, w.duration ≤ bv) ∨
      (∃ j w, ws.get? j = some w ∧ (findLargestGo ws i bi bv).1 = i + j ∧
        (findLargestGo ws i bi bv).2 = w.duration ∧ bv < w.duration ∧
        ∀ w' ∈ ws, w'.duration ≤ w.duration) := by
  intro ws
  induction ws with
  | nil => intro i bi bv; left; exact ⟨rfl, by simp⟩
  | cons w ws ih =>
      intro i bi bv
      unfold findLargestGo
      by_cases h : bv < w.duration
      · simp only [h, if_true]
        rcases ih (i + 1) i w.duration with ⟨heq, hall⟩ | ⟨j, w', hj, h1, h2, h3, h4⟩
        · right
          refine ⟨0, w, rfl, ?_, ?_, h, ?_⟩
          · simp [heq]
          · simp [heq]
          · intro w' hw'
            rcases List.mem_cons.mp hw' with rfl | hw'
            · exact le_refl _
            · exact hall w' hw'
        · right
          refine ⟨j + 1, w', hj, ?_, h2, lt_trans h h3, ?_⟩
          · rw [h1]; omega
          · intro w'' hw''
            rcases List.mem_cons.mp hw'' with rfl | hw''
            · exact le_of_lt h3
            · exact h4 w'' hw''
      · simp only [h, if_false]
        rcases ih (i + 1) bi bv with ⟨heq, hall⟩ | ⟨j, w', hj, h1, h2, h3, h4⟩
        · left
          refine ⟨heq, ?_⟩
          intro w' hw'
          rcases List.mem_cons.mp hw' with rfl | hw'
          · exact not_lt.mp h
          · exact hall w' hw'
        · right
          refine ⟨j + 1, w', hj, ?_, h2, h3, ?_⟩
          · rw [h1]; omega
          · intro w'' hw''
            rcases List.mem_cons.mp hw'' with rfl | hw''
            · exact le_trans (not_lt.mp h) (le_of_lt h3)
            · exact h4 w'' hw''

theorem getD_of_get? :
    ∀ (l : List Worklog) (j : ℕ) (w : Worklog), l.get? j = some w →
      l.getD j default = w := by
  intro l
  induction l with
  | nil => intro j w h; simp at h
  | cons x xs ih =>
      intro j w h
      match j with
      | 0 => simp at h; simp [h]
      | j + 1 =>
          simp only [List.get?_cons_succ] at h
          simpa using ih j w h

theorem lt_length_of_get? :
    ∀ (l : List Worklog) (j : ℕ) (w : Worklog), l.get? j = some w →
      j < l.length := by
  intro l
  induction l with
  | nil => intro j w h; simp at h
  | cons x xs ih =>
      intro j w h
      match j with
      | 0 => simp
      | j + 1 =>
          simp only [List.get?_cons_succ] at h
          simpa using ih j w h

theorem findLargest_spec (ws : List Worklog) (hne : ws ≠ [])
    (hpos : ∀ w ∈ ws, 0 ≤ w.duration) :
    (findLargest ws).1 < ws.length ∧
    (ws.getD (findLargest ws).1 default).duration = (findLargest ws).2 ∧
    0 ≤ (findLargest ws).2 := by
  unfold findLargest
  rcases findLargestGo_spec ws 0 0 0 with ⟨heq, hall⟩ | ⟨j, w, hj, h1, h2, h3, h4⟩
  · rw [heq]
    match ws, hne with
    | w0 :: rest, _ =>
        have hz : w0.duration = 0 :=
          le_antisymm (hall w0 (List.mem_cons_self _ _)) (hpos w0 (List.mem_cons_self _ _))
        exact ⟨by simp, by simpa using hz, le_refl 0⟩
  · have hjlt := lt_length_of_get? ws j w hj
    have hgd := getD_of_get? ws j w hj
    rw [h1, h2]
    exact ⟨by simpa using hjlt, by rw [Nat.zero_add, hgd], hpos w (List.get?_mem hj)⟩

theorem sumDur_eraseIdx :
    ∀ (l : List Worklog) (i : ℕ), i < l.length →
      sumDur (l.eraseIdx i) = sumDur l - (l.getD i default).duration := by
  intro l
  induction l with
  | nil => intro i h; simp at h
  | cons w ws ih =>
      intro i hi
      match i with
      | 0 => simp [List.eraseIdx, sumDur_cons]
      | i + 1 =>
          simp only [List.eraseIdx_cons_succ, sumDur_cons, List.getD_cons_succ]
          rw [ih i (by simpa using hi)]
          ring

theorem adjustStep_fixed (T : ℤ) (kept : List Worklog) (dels : ℕ)
    (hpos : ∀ w ∈ kept, 0 ≤ w.duration) (hle : sumDur kept ≤ T) :
    (adjustStep T kept dels).1.length = 0 ∨ sumDur (adjustStep T kept dels).1 = T := by
  unfold adjustStep
  by_cases hcond : sumDur kept ≠ T ∧ 0 < kept.length
  · rw [if_pos hcond]
    have hne : kept ≠ [] := by
      intro h
      rw [h] at hcond
      simp at hcond
    obtain ⟨hidx, hdv, hnn⟩ := findLargest_spec kept hne hpos
    have hlt : sumDur kept < T := lt_of_le_of_ne hle hcond.1
    have hposn : 0 < (findLargest kept).2 + (T - sumDur kept) := by omega
    rw [if_pos hposn]
    right
    rw [sumDur_append, sumDur_eraseIdx kept _ hidx, sumDur_cons, sumDur_nil]
    have hdm : 60 * Int.tdiv ((findLargest kept).2 + (T - sumDur kept)) 60 +
        Int.tmod ((findLargest kept).2 + (T - sumDur kept)) 60 =
        (findLargest kept).2 + (T - sumDur kept) := by
      rw [Int.tdiv_add_tmod]
    simp only [hdm, hdv]
    ring
  · rw [if_neg hcond]
    push_neg at hcond
    by_cases hs : sumDur kept = T
    · exact Or.inr hs
    · have := hcond hs
      exact Or.inl (show kept.length = 0 by omega)

theorem cleanupAndNormalize_noop (T : ℤ) (ws : List Worklog)
    (h : ws.length = 0 ∨ sumDur ws = T) :
    cleanupAndNormalize T ws = (ws, 0, 0) := by
  unfold cleanupAndNormalize
  rcases h with h | h
  · rw [if_pos h]
  · by_cases h0 : ws.length = 0
    · rw [if_pos h0]
    · rw [if_neg h0, if_pos h]

theorem cleanupAndNormalize_main (T : ℤ) (ws : List Worklog)
    (h0 : ws.length ≠ 0) (h1 : sumDur ws ≠ T) :
    cleanupAndNormalize T ws =
      (let tr := if T < sumDur (dedupKeep ws) then trimStep T (dedupKeep ws)
                 else (dedupKeep ws, []);
       adjustStep T tr.1 ((dedupDelete ws).length + tr.2.length)) := by
  unfold cleanupAndNormalize
  rw [if_neg h0, if_neg h1]

theorem dedupKeep_dur_nonneg {ws : List Worklog}
    (hdur : ∀ w ∈ ws, 0 ≤ w.duration) :
    ∀ w ∈ dedupKeep ws, 0 ≤ w.duration :=
  fun w hw => hdur w (dedupKeep_subset hw)

theorem cleanupAndNormalize_fixed (T : ℤ) (ws : List Worklog)
    (hT : 0 ≤ T) (hdur : ∀ w ∈ ws, 0 ≤ w.duration) :
    (cleanupAndNormalize T ws).1.length = 0 ∨
    sumDur (cleanupAndNormalize T ws).1 = T := by
  by_cases h0 : ws.length = 0
  · rw [cleanupAndNormalize_noop T ws (Or.inl h0)]
    exact Or.inl h0
  by_cases h1 : sumDur ws = T
  · rw [cleanupAndNormalize_noop T ws (Or.inr h1)]
    exact Or.inr h1
  rw [cleanupAndNormalize_main T ws h0 h1]
  by_cases htr : T < sumDur (dedupKeep ws)
  · simp only [htr, if_true]
    refine adjustStep_fixed T _ _ ?_ ?_
    · intro w hw
      have hw2 : w ∈ exchangeSort (dedupKeep ws) :=
        trimLoop_keep_subset T (exchangeSort (dedupKeep ws)) 0 hw
      exact dedupKeep_dur_nonneg hdur w ((exchangeSort_perm' _).subset hw2)
    · have := trimLoop_sum_le T (exchangeSort (dedupKeep ws)) 0 hT
      unfold trimStep
      omega
  · simp only [htr, if_false]
    refine adjustStep_fixed T _ _ (dedupKeep_dur_nonneg hdur) ?_
    omega

/-- **C3.** Reconciliation is idempotent: for every (nonnegative) target
and every persisted worklog list with nonnegative durations, running
`cleanupAndNormalize` a second time on the state produced by a first run
— with no intervening external change — performs zero worklog deletions
and zero worklog creations.  (The first run either no-ops, empties the
day, or lands the total exactly on the target; in each case the second
run exits through one of its two no-op gates.) -/
theorem cleanupAndNormalize_idempotent (T : ℤ) (ws : List Worklog)
    (hT : 0 ≤ T) (hdur : ∀ w ∈ ws, 0 ≤ w.duration) :
    (cleanupAndNormalize T (cleanupAndNormalize T ws).1).2.1 = 0 ∧
    (cleanupAndNormalize T (cleanupAndNormalize T ws).1).2.2 = 0 := by
  rw [cleanupAndNormalize_noop T _ (cleanupAndNormalize_fixed T ws hT hdur)]
  exact ⟨rfl, rfl⟩

/-- Witness for `cleanupAndNormalize_idempotent`: a duplicated 600-minute
pair against a 480-minute target (first pass deletes both, second pass is
a no-op). -/
theorem cleanupAndNormalize_idempotent_witness :
    (cleanupAndNormalize 480
      (cleanupAndNormalize 480 [⟨1, "I", "c", 600⟩, ⟨2, "I", "c", 600⟩]).1).2.1 = 0 ∧
    (cleanupAndNormalize 480
      (cleanupAndNormalize 480 [⟨1, "I", "c", 600⟩, ⟨2, "I", "c", 600⟩]).1).2.2 = 0 :=
  cleanupAndNormalize_idempotent 480 [⟨1, "I", "c", 600⟩, ⟨2, "I", "c", 600⟩]
    (by norm_num)
    (by intro w hw
        rcases List.mem_cons.mp hw with rfl | hw
        · norm_num
        rcases List.mem_cons.mp hw with rfl | hw
        · norm_num
        simp at hw)

/-! ### C8: the business-unit duration codec -/

theorem natDigitChar_isDigit (d : ℕ) : (natDigitChar d).isDigit = true := by
  unfold natDigitChar
  split <;> decide

theorem natDigitChar_toNat (d : ℕ) (hd : d < 10) : (natDigitChar d).toNat - 48 = d := by
  interval_cases d <;> decide

theorem natRepr_digits (n : ℕ) : ∀ c ∈ natRepr n, c.isDigit = true := by
  induction n using Nat.strong_induction_on with
  | _ n ih =>
      by_cases h : n < 10
      · unfold natRepr
        rw [dif_pos h]
        intro c hc
        rw [List.mem_singleton.mp hc]
        exact natDigitChar_isDigit n
      · unfold natRepr
        rw [dif_neg h]
        intro c hc
        rcases List.mem_append.mp hc with h1 | h2
        · exact ih (n / 10) (Nat.div_lt_self (by omega) (by omega)) c h1
        · rw [List.mem_singleton.mp h2]
          exact natDigitChar_isDigit _

theorem natRepr_ne_nil (n : ℕ) : natRepr n ≠ [] := by
  unfold natRepr
  by_cases h : n < 10
  · rw [dif_pos h]
    simp
  · rw [dif_neg h]
    simp

theorem digitsVal_append (c : Char) (hc : c.isDigit = true) :
    ∀ (xs : List Char), (∀ x ∈ xs, x.isDigit = true) →
      ∀ acc, digitsVal (xs ++ [c]) acc = 10 * digitsVal xs acc + (c.toNat - 48) := by
  intro xs
  induction xs with
  | nil =>
      intro _ acc
      simp [digitsVal, hc]
  | cons x xs ih =>
      intro hxs acc
      have hx := hxs x (by simp)
      simp only [List.cons_append, digitsVal, hx, if_true]
      exact ih (fun y hy => hxs y (by simp [hy])) _

theorem digitsVal_natRepr (n : ℕ) : ∀ acc,
    digitsVal (natRepr n) acc = acc * 10 ^ (natRepr n).length + n := by
  induction n using Nat.strong_induction_on with
  | _ n ih =>
      intro acc
      by_cases h : n < 10
      · unfold natRepr
        rw [dif_pos h]
        have hd := natDigitChar_isDigit n
        have ht := natDigitChar_toNat n h
        simp [digitsVal, hd, ht]
        omega
      · unfold natRepr
        rw [dif_neg h]
        rw [digitsVal_append _ (natDigitChar_isDigit _) _ (natRepr_digits _) acc]
        rw [ih (n / 10) (Nat.div_lt_self (by omega) (by omega)) acc]
        rw [natDigitChar_toNat _ (Nat.mod_lt _ (by omega))]
        rw [List.length_append, List.length_singleton, pow_succ]
        calc 10 * (acc * 10 ^ (natRepr (n / 10)).length + n / 10) + n % 10
            = acc * (10 ^ (natRepr (n / 10)).length * 10) + (10 * (n / 10) + n % 10) := by
              ring
          _ = acc * (10 ^ (natRepr (n / 10)).length * 10) + n := by
              rw [Nat.div_add_mod]

theorem isDigit_ne_of {c : Char} (x : Char) (h : c.isDigit = true)
    (hx : x.isDigit = false) : c ≠ x := by
  intro he
  rw [he, hx] at h
  cases h

theorem not_mem_of_digits (x : Char) (hx : x.isDigit = false) (l : List Char)
    (hl : ∀ c ∈ l, c.isDigit = true) : x ∉ l := by
  intro hm
  rw [hl x hm] at hx
  cases hx

theorem scanInt_natRepr (n : ℕ) : scanInt (natRepr n) = (n : ℤ) := by
  cases hr : natRepr n with
  | nil => exact absurd hr (natRepr_ne_nil n)
  | cons c cs =>
      have hdig : c.isDigit = true := natRepr_digits n c (by rw [hr]; simp)
      have hc1 : c ≠ '-' := isDigit_ne_of '-' hdig (by decide)
      have hc2 : c ≠ '+' := isDigit_ne_of '+' hdig (by decide)
      simp only [scanInt, hc1, hc2, if_false]
      rw [← hr, digitsVal_natRepr n 0]
      simp

theorem takeWhile_marker (p : Char) :
    ∀ (ds rest : List Char), (∀ c ∈ ds, c ≠ p) →
      (ds ++ p :: rest).takeWhile (fun x => x != p) = ds ∧
      (ds ++ p :: rest).dropWhile (fun x => x != p) = p :: rest := by
  intro ds
  induction ds with
  | nil =>
      intro rest _
      constructor
      · simp [List.takeWhile_cons]
      · simp [List.dropWhile_cons]
  | cons d ds ih =>
      intro rest hd
      have hdp : (d != p) = true := bne_iff_ne.mpr (hd d (by simp))
      obtain ⟨h1, h2⟩ := ih rest fun c hc => hd c (by simp [hc])
      constructor
      · simp only [List.cons_append, List.takeWhile_cons, hdp, if_true]
        rw [h1]
      · simp only [List.cons_append, List.dropWhile_cons, hdp, if_true]
        rw [h2]

/-- The common output shape of `FormatDuration`: `PT{h}H{m}M` when both
parts are positive, `PT{h}H` for whole hours, `PT{m}M` otherwise (the
`minutes == 0` early return produces the same characters as `h = m = 0`). -/
def formatHM (h k : ℤ) : List Char :=
  if 0 < h ∧ 0 < k then 'P' :: 'T' :: (intRepr h ++ 'H' :: (intRepr k ++ ['M']))
  else if 0 < h then 'P' :: 'T' :: (intRepr h ++ ['H'])
  else 'P' :: 'T' :: (intRepr k ++ ['M'])

theorem formatDurationChars_eq (m : ℚ) :
    formatDurationChars m = formatHM (goInt (m / 60)) (Int.tmod (goInt m) 60) := by
  unfold formatDurationChars
  by_cases h : m = 0
  · rw [if_pos h, h]
    have h1 : goInt ((0 : ℚ) / 60) = 0 := by
      unfold goInt
      norm_num
    have h2 : goInt (0 : ℚ) = 0 := by
      unfold goInt
      norm_num
    rw [h1, h2]
    have h3 : Int.tmod 0 60 = 0 := by decide
    rw [h3]
    simp [formatHM, intRepr, natRepr, natDigitChar]
  · rw [if_neg h]
    rfl

theorem parse_formatHM (h k : ℤ) (hh : 0 ≤ h) (hk0 : 0 ≤ k) (hk : k < 60) :
    parseDurationChars (formatHM h k) = some (60 * h + k) := by
  have hirh : intRepr h = natRepr h.toNat := by
    unfold intRepr
    rw [if_neg (not_lt.mpr hh)]
  have hirk : intRepr k = natRepr k.toNat := by
    unfold intRepr
    rw [if_neg (not_lt.mpr hk0)]
  have hdigh := natRepr_digits h.toNat
  have hdigk := natRepr_digits k.toNat
  have hHh : 'H' ∉ natRepr h.toNat := not_mem_of_digits 'H' (by decide) _ hdigh
  have hHk : 'H' ∉ natRepr k.toNat := not_mem_of_digits 'H' (by decide) _ hdigk
  have hMk : 'M' ∉ natRepr k.toNat := not_mem_of_digits 'M' (by decide) _ hdigk
  have hscanh : scanInt (natRepr h.toNat) = h := by
    rw [scanInt_natRepr, Int.toNat_of_nonneg hh]
  have hscank : scanInt (natRepr k.toNat) = k := by
    rw [scanInt_natRepr, Int.toNat_of_nonneg hk0]
  unfold formatHM
  by_cases hb1 : 0 < h ∧ 0 < k
  · rw [if_pos hb1, hirh, hirk]
    have hH1 := takeWhile_marker 'H' (natRepr h.toNat) (natRepr k.toNat ++ ['M'])
      fun c hc => isDigit_ne_of 'H' (hdigh c hc) (by decide)
    have hM1 := takeWhile_marker 'M' (natRepr k.toNat) []
      fun c hc => isDigit_ne_of 'M' (hdigk c hc) (by decide)
    simp [parseDurationChars, List.takeWhile_cons, List.dropWhile_cons,
      hH1.1, hH1.2, hM1.1, hM1.2, hscanh, hscank, hHh, hHk, hMk]
    omega
  · rw [if_neg hb1]
    by_cases hb2 : 0 < h
    · rw [if_pos hb2, hirh]
      have hH1 := takeWhile_marker 'H' (natRepr h.toNat) []
        fun c hc => isDigit_ne_of 'H' (hdigh c hc) (by decide)
      simp [parseDurationChars, List.takeWhile_cons, List.dropWhile_cons,
        hH1.1, hH1.2, hscanh, hHh, not_mem_of_digits 'M' (by decide) _ hdigh,
        not_mem_of_digits 'S' (by decide) _ hdigh]
      omega
    · rw [if_neg hb2, hirk]
      have hM1 := takeWhile_marker 'M' (natRepr k.toNat) []
        fun c hc => isDigit_ne_of 'M' (hdigk c hc) (by decide)
      simp [parseDurationChars, List.takeWhile_cons, List.dropWhile_cons,
        hM1.1, hM1.2, hscank, hHk, hMk]
      omega

theorem format_int (v : ℤ) (hv : 0 ≤ v) :
    formatDurationChars (v : ℚ) = formatHM (v / 60) (v % 60) := by
  rw [formatDurationChars_eq]
  have h1 : goInt ((v : ℚ) / 60) = v / 60 := by
    unfold goInt
    rw [if_pos (by positivity)]
    rw [show ((60 : ℚ)) = ((60 : ℕ) : ℚ) by norm_num,
      Rat.floor_intCast_div_natCast v 60]
    rfl
  have h2 : goInt (v : ℚ) = v := by
    unfold goInt
    rw [if_pos (by positivity), Int.floor_intCast]
  rw [h1, h2, Int.tmod_eq_emod hv (by norm_num)]

theorem parse_format_roundtrip (m : ℚ) (hm : 0 ≤ m) :
    ∃ v : ℤ, ParseISO8601Duration (FormatDuration m) = some v ∧
      FormatDuration (v : ℚ) = FormatDuration m := by
  have hfl : goInt m = ⌊m⌋ := by
    unfold goInt
    rw [if_pos hm]
  have hfl2 : goInt (m / 60) = ⌊m / 60⌋ := by
    unfold goInt
    rw [if_pos (by positivity)]
  have hh : 0 ≤ goInt (m / 60) := by
    rw [hfl2]
    exact Int.floor_nonneg.mpr (by positivity)
  have hFnn : 0 ≤ ⌊m⌋ := Int.floor_nonneg.mpr hm
  have hk0 : 0 ≤ Int.tmod (goInt m) 60 := by
    rw [hfl, Int.tmod_eq_emod hFnn (by norm_num)]
    exact Int.emod_nonneg _ (by norm_num)
  have hklt : Int.tmod (goInt m) 60 < 60 := by
    rw [hfl, Int.tmod_eq_emod hFnn (by norm_num)]
    exact Int.emod_lt_of_pos _ (by norm_num)
  refine ⟨60 * goInt (m / 60) + Int.tmod (goInt m) 60, ?_, ?_⟩
  · show parseDurationChars (FormatDuration m).data = _
    have hdata : (FormatDuration m).data = formatDurationChars m := rfl
    rw [hdata, formatDurationChars_eq]
    exact parse_formatHM _ _ hh hk0 hklt
  · unfold FormatDuration
    have he : formatDurationChars
        ((60 * goInt (m / 60) + Int.tmod (goInt m) 60 : ℤ) : ℚ) =
        formatDurationChars m := by
      rw [format_int _ (by omega), formatDurationChars_eq m]
      have e1 : (60 * goInt (m / 60) + Int.tmod (goInt m) 60) / 60 = goInt (m / 60) := by
        omega
      have e2 : (60 * goInt (m / 60) + Int.tmod (goInt m) 60) % 60 =
          Int.tmod (goInt m) 60 := by
        omega
      rw [e1, e2]
    rw [he]

/-- **C8.** The business-unit duration codec:
`ParseISO8601Duration "P1D" = 480` (1 day-unit = 8 hours),
`ParseISO8601Duration "P1W" = 2400` (1 week-unit = 40 hours),
`ParseISO8601Duration "PT1H30M" = 90`, `FormatDuration 90 = "PT1H30M"`,
and for every nonnegative minute count `m` the formatter's output parses
back to a value that re-formats to the identical string —
`format(parse(x)) = x` for every string `x` the formatter emits. -/
theorem duration_codec_spec :
    ParseISO8601Duration "P1D" = some 480 ∧
    ParseISO8601Duration "P1W" = some 2400 ∧
    ParseISO8601Duration "PT1H30M" = some 90 ∧
    FormatDuration 90 = "PT1H30M" ∧
    ∀ m : ℚ, 0 ≤ m → ∃ v : ℤ, ParseISO8601Duration (FormatDuration m) = some v ∧
      FormatDuration (v : ℚ) = FormatDuration m := by
  refine ⟨by decide, by decide, by decide, ?_, parse_format_roundtrip⟩
  unfold FormatDuration
  rw [show (90 : ℚ) = ((90 : ℤ) : ℚ) by norm_num, format_int 90 (by norm_num)]
  rw [show (90 : ℤ) / 60 = 1 by decide, show (90 : ℤ) % 60 = 30 by decide]
  have h1 : intRepr 1 = ['1'] := by
    unfold intRepr
    rw [if_neg (by norm_num)]
    unfold natRepr
    rw [dif_pos (by decide)]
    rfl
  have h30 : intRepr 30 = ['3', '0'] := by
    unfold intRepr
    rw [if_neg (by norm_num)]
    unfold natRepr
    rw [dif_neg (by decide)]
    unfold natRepr
    rw [dif_pos (by decide)]
    rfl
  simp only [formatHM, h1, h30]
  norm_num

/-- Witness for the round-trip part of `duration_codec_spec` at the
fractional input `m = 37.5` minutes. -/
theorem duration_codec_spec_witness :
    ∃ v : ℤ, ParseISO8601Duration (FormatDuration (75 / 2)) = some v ∧
      FormatDuration (v : ℚ) = FormatDuration (75 / 2) :=
  duration_codec_spec.2.2.2.2 (75 / 2) (by norm_num)
